import Mathlib

/-!
Shallow embedding of `ont_fast5_api/conversion_tools/multi_to_multi_fast5.py`.

The module repackages reads stored in multi-read container files, either into
fixed-size batches (`repackage_multi_to_multi`) or into per-label bins driven
by a tab-separated binning table (`parse_csv`, `multi_to_adapter_multi`,
`batch_split_multi_to_adapter_multi`).

Modelling choices:
* A container is an association list from read id to read data, in listing
  order; `get_read_ids` is the key list.
* The container API (`MultiFast5File.get_read_ids` / `get_read` /
  `create_read`, `handle.copy`, `attrs["run_id"]`) is not part of the source
  file.  It is modelled from the spec: reads carry a `run_id` attribute and an
  unordered set of named opaque groups; `create_read` fails when the id is
  already present (read ids are unique within a container); groups are copied
  verbatim.  A read whose HDF5 group lacks the `run_id` attribute makes
  `attrs["run_id"]` raise, which is the generic per-read failure mode; a
  failure is modelled as `none` and a logged error is counted.
* Python exceptions are modelled by `Option`/`Except` plus an error counter
  standing for `logger.error` calls.
* File system paths for binning outputs are modelled structurally as the
  triple `os.path.join(output_folder, group, basename(input_file))`.
* CSV lines are modelled as `List Char` so that `str.strip()` and
  `str.split("\t")` compute in the kernel.
-/

namespace MultiToMulti

/-- Data of one read: the `run_id` attribute (`none` when the attribute is
absent, in which case `attrs["run_id"]` raises `KeyError`) and the named data
groups, each an opaque blob.  Modelled from the spec: the container API is an
external collaborator; groups are opaque and copied verbatim. -/
structure ReadData where
  runId : Option String
  groups : List (String × String)
deriving DecidableEq

/-- A multi-read container: read id ↦ read data, in listing order. -/
abbrev Container := List (String × ReadData)

/-- `MultiFast5File.get_read_ids`: the read ids of a container in listing
order.  Modelled from the spec (`listReadIds`). -/
def readIds (c : Container) : List String :=
  c.map Prod.fst

/-- Membership test used by the idempotency check
`read_id not in binned_multi_f5.get_read_ids()`. -/
def containsRead (c : Container) (rid : String) : Bool :=
  (readIds c).contains rid

/-- One per-read copy attempt, the body shared by the inner `try` blocks of
`multi_to_adapter_multi` and `repackage_multi_to_multi`:

    read = multi_f5.get_read(read_id)
    group_name = "read_" + read_id
    run_id = multi_f5.handle[group_name].attrs["run_id"]
    output_read = output_multi_f5.create_read(read_id, run_id)
    for group in read.handle:
        output_read.handle.copy(read.handle[group], group)

`none` models an exception raised by any step: the read id missing from the
source, the `run_id` attribute missing, or `create_read` refusing a read id
already present in the destination (modelled from the spec: read ids are
unique within a container). -/
def copyCore (src dest : Container) (rid : String) : Option Container := do
  let rd ← List.lookup rid src
  let runId ← rd.runId
  if containsRead dest rid then
    none
  else
    some (dest ++ [(rid, ⟨some runId, rd.groups⟩)])

/-- The per-read copy of the label-binning path (`multi_to_adapter_multi`,
guarded by `if read_id not in binned_multi_f5.get_read_ids()`).  Returns the
new destination contents and the number of logged errors. -/
def copyReadBinned (src dest : Container) (rid : String) : Container × Nat :=
  if containsRead dest rid then
    (dest, 0)
  else
    match copyCore src dest rid with
    | some d => (d, 0)
    | none => (dest, 1)

/-- The per-read copy of the fixed-size batch path
(`repackage_multi_to_multi`): no membership pre-check, any exception is
caught, logged and the loop continues. -/
def copyReadBatch (src dest : Container) (rid : String) : Container × Nat :=
  match copyCore src dest rid with
  | some d => (d, 0)
  | none => (dest, 1)

/-- A per-read copy attempt can succeed: the read id resolves in the source
and its `run_id` attribute is present. -/
def goodRead (src : Container) (rid : String) : Bool :=
  ((List.lookup rid src).bind ReadData.runId).isSome

/-! ### Binning table (`parse_csv`) -/

/-- Python's `str.split("\t")`: split at every tab, no collapsing, the empty
string yields one empty field. -/
def splitTab : List Char → List (List Char)
  | [] => [[]]
  | c :: rest =>
    if c = '\t' then [] :: splitTab rest
    else
      match splitTab rest with
      | f :: r => (c :: f) :: r
      | [] => [[c]]

/-- Python's `str.strip()`: drop leading and trailing whitespace (over the
whitespace characters relevant to this format: space, tab, newline, CR). -/
def pyStrip (s : List Char) : List Char :=
  ((s.dropWhile Char.isWhitespace).reverse.dropWhile Char.isWhitespace).reverse

/-- `read_id, grp = line.strip().split("\t")`: unpacking fails unless the
stripped line splits into exactly two fields. -/
def parseLine (line : List Char) : Except String (String × String) :=
  match splitTab (pyStrip line) with
  | [rid, grp] => .ok (⟨rid⟩, ⟨grp⟩)
  | _ => .error "MalformedBinningEntry"

/-- `d[k] = v` on a Python dict (kept as an association list in insertion
order): replace in place when the key exists, append otherwise. -/
def dictSet {α β : Type} [DecidableEq α] (d : List (α × β)) (k : α) (v : β) :
    List (α × β) :=
  if (d.map Prod.fst).contains k then
    d.map fun p => if p.1 = k then (k, v) else p
  else
    d ++ [(k, v)]

/-- The line loop of `parse_csv`: `binning[read_id] = grp` for each line; an
unpacking failure on any line propagates (the function has no handler). -/
def parseCsvAux (acc : List (String × String)) :
    List (List Char) → Except String (List (String × String))
  | [] => .ok acc
  | line :: rest => do
    let (rid, grp) ← parseLine line
    parseCsvAux (dictSet acc rid grp) rest

/-- `parse_csv`: read all lines into a dict mapping read id to group. -/
def parse_csv (lines : List (List Char)) :
    Except String (List (String × String)) :=
  parseCsvAux [] lines

/-- Whether an `Except` computation raised. -/
def isError : Except ε α → Bool
  | .error _ => true
  | .ok _ => false

/-- Reference reading of "last entry for a given read id in file order wins":
the label of the last well-formed line carrying `rid`. -/
def lastLabel (lines : List (List Char)) (rid : String) : Option String :=
  lines.foldl
    (fun acc line =>
      match parseLine line with
      | .ok (r, g) => if r = rid then some g else acc
      | .error _ => acc)
    none

/-! ### Label-binning path (`multi_to_adapter_multi`) -/

/-- The destination path
`os.path.join(output_folder, grp, os.path.basename(input_file))`, kept as its
three components. -/
structure BinPath where
  outputRoot : String
  label : String
  basename : String
deriving DecidableEq

/-- The binning output file system: path ↦ container contents. -/
abbrev FS := List (BinPath × Container)

/-- Opening a path in `'a'` mode: existing contents, or a fresh empty
container. -/
def fsGet (fs : FS) (p : BinPath) : Container :=
  (List.lookup p fs).getD []

/-- Writing back a path's contents. -/
def fsSet (fs : FS) (p : BinPath) (c : Container) : FS :=
  dictSet fs p c

/-- The read-id list a grouping dict holds for a label (empty when the label
has not been seen yet). -/
def groupOf (b : List (String × List String)) (lbl : String) : List String :=
  (List.lookup lbl b).getD []

/-- `binned[binning[read_id]].append(read_id)` with dict-insertion order:
append to the label's list, creating the label on first sight. -/
def binnedAdd (b : List (String × List String)) (lbl rid : String) :
    List (String × List String) :=
  dictSet b lbl (groupOf b lbl ++ [rid])

/-- The grouping loop of `multi_to_adapter_multi`: read ids present in the
binning table, grouped by their label; ids absent from the table are
dropped. -/
def buildBinned (binning : List (String × String)) (ids : List String) :
    List (String × List String) :=
  ids.foldl
    (fun b rid =>
      match List.lookup rid binning with
      | some lbl => binnedAdd b lbl rid
      | none => b)
    []

/-- The inner read loop of one label: copy each binned read into the open
destination, accumulating logged errors. -/
def copyAll (multi dest : Container) (rids : List String) : Container × Nat :=
  rids.foldl
    (fun acc rid =>
      let r := copyReadBinned multi acc.1 rid
      (r.1, acc.2 + r.2))
    (dest, 0)

/-- One label of one input file: open (or fail to open) the destination
container, copy the label's reads, write back.  `badDest` lists the paths
whose open/create raises; such a failure is caught and logged
(`Failed to write to MultiRead file`). -/
def processLabel (multi : Container) (badDest : List BinPath) (fs : FS)
    (p : BinPath) (rids : List String) : FS × Nat :=
  if badDest.contains p then
    (fs, 1)
  else
    let r := copyAll multi (fsGet fs p) rids
    (fsSet fs p r.1, r.2)

/-- The `for grp in binned` loop: process each label group in insertion
order, threading the output file system and summing logged errors. -/
def binFold (multi : Container) (outputRoot basename : String)
    (badDest : List BinPath) (groups : List (String × List String))
    (acc : FS × Nat) : FS × Nat :=
  groups.foldl
    (fun a g =>
      let r := processLabel multi badDest a.1 ⟨outputRoot, g.1, basename⟩ g.2
      (r.1, a.2 + r.2))
    acc

/-- `multi_to_adapter_multi(input_file, output_folder, binning)`.  `input` is
`none` when opening the input container raises (caught and logged,
`Failed to copy files from`, the file contributes no output).  Returns the
file system, the number of logged errors, and the `results` deque (the
basename once on entry, appended again on success). -/
def multi_to_adapter_multi (input : Option Container)
    (outputRoot basename : String) (binning : List (String × String))
    (badDest : List BinPath) (fs : FS) : FS × Nat × List String :=
  match input with
  | none => (fs, 1, [basename])
  | some multi =>
    let binned := buildBinned binning (readIds multi)
    let r := binFold multi outputRoot basename badDest binned (fs, 0)
    (r.1, r.2, [basename, basename])

/-- `batch_split_multi_to_adapter_multi`: run `multi_to_adapter_multi` over
every discovered input file (the worker pool sequentialised in file-list
order; the spec leaves cross-worker ordering immaterial), threading the
output file system and summing logged errors. -/
def batch_split_multi_to_adapter_multi
    (inputs : List (Option Container × String)) (outputRoot : String)
    (binning : List (String × String)) (badDest : List BinPath) :
    FS × Nat :=
  inputs.foldl
    (fun acc i =>
      let (fs', e, _) :=
        multi_to_adapter_multi i.1 outputRoot i.2 binning badDest acc.1
      (fs', acc.2 + e))
    ([], 0)

/-- `main` with `--binning_csv_file`: `parse_csv` runs first and has no
handler, so a malformed line aborts the run before any copying. -/
def mainBinning (lines : List (List Char))
    (inputs : List (Option Container × String)) (outputRoot : String)
    (badDest : List BinPath) : Except String (FS × Nat) := do
  let binning ← parse_csv lines
  pure (batch_split_multi_to_adapter_multi inputs outputRoot binning badDest)

/-! ### Fixed-size batch path (`repackage_multi_to_multi`) -/

/-- The mutable state of `repackage_multi_to_multi`'s loop, plus an account
of handle lifecycle events.  `finished` holds output containers closed at
rollover, in index order; `current` is the open output `output_multi_f5`;
`openedIdxs`/`closedIdxs` record which output indices have been opened and
closed so far; `errors` counts `logger.error` calls. -/
structure BatchState where
  finished : List Container
  current : Container
  readNum : Nat
  batchNum : Nat
  openedIdxs : List Nat
  closedIdxs : List Nat
  errors : Nat
deriving DecidableEq

/-- The state before the file loop: `read_num = 0`, `batch_num = 0` and
`output_multi_f5 = MultiFast5File(output_file, 'a')` already open —
the first output container exists before any input is opened. -/
def initState : BatchState :=
  { finished := [], current := [], readNum := 0, batchNum := 0,
    openedIdxs := [0], closedIdxs := [], errors := 0 }

/-- The rollover branch: close the current output, open
`{base}_{batch_num+1}.fast5`, reset the read counter. -/
def rollover (s : BatchState) : BatchState :=
  { finished := s.finished ++ [s.current], current := [],
    readNum := 0, batchNum := s.batchNum + 1,
    openedIdxs := s.openedIdxs ++ [s.batchNum + 1],
    closedIdxs := s.closedIdxs ++ [s.batchNum],
    errors := s.errors }

/-- One iteration of the read loop: roll over when
`read_num >= batch_size and batch_size > 0`, then attempt the copy (errors
caught and logged), then `read_num += 1` unconditionally. -/
def stepRead (batchSize : Int) (src : Container) (rid : String)
    (s : BatchState) : BatchState :=
  let t := if (s.readNum : Int) ≥ batchSize ∧ 0 < batchSize then rollover s
           else s
  let r := copyReadBatch src t.current rid
  { t with current := r.1, errors := t.errors + r.2, readNum := t.readNum + 1 }

/-- One input file: iterate its read ids in listing order. -/
def stepFile (batchSize : Int) (s : BatchState) (src : Container) :
    BatchState :=
  (readIds src).foldl (fun st rid => stepRead batchSize src rid st) s

/-- A discovered input file: its contents, or a file whose open raises. -/
inductive InputFile where
  | ok (c : Container)
  | bad
deriving DecidableEq

/-- The `try`-wrapped file loop.  The `try` encloses the whole `for`, so the
first input container that fails to open leaves the loop immediately; the
returned flag records that an exception escaped the loop.  The bare
`except:` then references the unbound name `e`, so the handler itself raises
`NameError` and (after the `finally`) the run dies with a non-zero status. -/
def runLoop (batchSize : Int) : BatchState → List InputFile → BatchState × Bool
  | s, [] => (s, false)
  | s, .ok c :: rest => runLoop batchSize (stepFile batchSize s c) rest
  | s, .bad :: _ => (s, true)

/-- The `finally: output_multi_f5.close()` clause: the current output index
is closed on every exit path. -/
def finallyClose (s : BatchState) : BatchState :=
  { s with closedIdxs := s.closedIdxs ++ [s.batchNum] }

/-- `repackage_multi_to_multi` over a discovered file list: the loop, then
the `finally`.  The flag is `true` when the run terminates abnormally. -/
def repackage_multi_to_multi (batchSize : Int) (files : List InputFile) :
    BatchState × Bool :=
  let r := runLoop batchSize initState files
  (finallyClose r.1, r.2)

/-- The output containers a run produced, in index order (index `i` lives at
`{base}_{i}.fast5`): the rolled-over ones followed by the final current
one. -/
def outputs (s : BatchState) : List Container :=
  s.finished ++ [s.current]

/-! ### Association-list helper lemmas -/

section Helpers

variable {α β : Type} [DecidableEq α]

theorem lookup_cons (a : α) (p : α × β) (l : List (α × β)) :
    List.lookup a (p :: l) = if a = p.1 then some p.2 else List.lookup a l := by
  obtain ⟨k, b⟩ := p
  by_cases h : a = k
  · simp [List.lookup, h]
  · have hb : (a == k) = false := beq_eq_false_iff_ne.mpr h
    simp [List.lookup, hb, h]

theorem lookup_append (a : α) (l₁ l₂ : List (α × β)) :
    List.lookup a (l₁ ++ l₂) =
      match List.lookup a l₁ with
      | some v => some v
      | none => List.lookup a l₂ := by
  induction l₁ with
  | nil => simp [List.lookup]
  | cons p rest ih =>
    by_cases h : a = p.1 <;> simp [lookup_cons, h, ih]

theorem mem_keys_of_lookup {a : α} {l : List (α × β)} {v : β}
    (h : List.lookup a l = some v) : a ∈ l.map Prod.fst := by
  induction l with
  | nil => simp [List.lookup] at h
  | cons p rest ih =>
    rw [lookup_cons] at h
    by_cases hpa : a = p.1
    · simp [hpa]
    · simp only [hpa, if_false] at h
      simp [ih h]

theorem lookup_eq_none_of_not_mem {a : α} {l : List (α × β)}
    (h : a ∉ l.map Prod.fst) : List.lookup a l = none := by
  cases hl : List.lookup a l with
  | none => rfl
  | some v => exact absurd (mem_keys_of_lookup hl) h

theorem contains_keys_iff (l : List (α × β)) (a : α) :
    (l.map Prod.fst).contains a = true ↔ a ∈ l.map Prod.fst := by
  simp [List.contains]

theorem lookup_map_replace_ne {a k : α} (v : β) (l : List (α × β))
    (hak : a ≠ k) :
    List.lookup a (l.map fun p => if p.1 = k then (k, v) else p)
      = List.lookup a l := by
  induction l with
  | nil => simp
  | cons q rs ih =>
    by_cases hq : q.1 = k
    · simp [hq, lookup_cons, hak, ih, hq ▸ hak]
    · simp [hq, lookup_cons, ih]

theorem lookup_map_replace_eq (k : α) (v : β) (l : List (α × β))
    (hc : k ∈ l.map Prod.fst) :
    List.lookup k (l.map fun p => if p.1 = k then (k, v) else p)
      = some v := by
  induction l with
  | nil => simp at hc
  | cons q rs ih =>
    by_cases hq : q.1 = k
    · simp [hq, lookup_cons]
    · simp only [List.map_cons, List.mem_cons] at hc
      rcases hc with hc | hc
      · exact absurd hc.symm hq
      · simp [hq, lookup_cons, ih hc, Ne.symm hq]

theorem lookup_dictSet (d : List (α × β)) (k : α) (v : β) (a : α) :
    List.lookup a (dictSet d k v) =
      if a = k then some v else List.lookup a d := by
  unfold dictSet
  by_cases hc : k ∈ d.map Prod.fst
  · rw [if_pos ((contains_keys_iff d k).mpr hc)]
    by_cases hak : a = k
    · subst hak
      rw [if_pos rfl, lookup_map_replace_eq a v d hc]
    · rw [if_neg hak, lookup_map_replace_ne v d hak]
  · rw [if_neg (by simpa [contains_keys_iff] using hc)]
    rw [lookup_append]
    by_cases hak : a = k
    · rw [lookup_eq_none_of_not_mem (hak ▸ hc)]
      simp [List.lookup, hak]
    · have hb : (a == k) = false := beq_eq_false_iff_ne.mpr hak
      cases hl : List.lookup a d <;> simp [List.lookup, hak, hb, hl]

theorem keys_dictSet (d : List (α × β)) (k : α) (v : β) :
    (dictSet d k v).map Prod.fst =
      if k ∈ d.map Prod.fst then d.map Prod.fst
      else d.map Prod.fst ++ [k] := by
  unfold dictSet
  by_cases hc : k ∈ d.map Prod.fst
  · rw [if_pos ((contains_keys_iff d k).mpr hc), if_pos hc, List.map_map]
    apply List.map_congr_left
    intro p _
    by_cases h : p.1 = k <;> simp [Function.comp, h]
  · rw [if_neg (by simpa [contains_keys_iff] using hc), if_neg hc]
    simp

end Helpers

/-! ### Copy-engine lemmas -/

theorem containsRead_iff (c : Container) (rid : String) :
    containsRead c rid = true ↔ rid ∈ readIds c := by
  simp [containsRead, List.contains]

theorem copyCore_success (src dest : Container) (rid : String)
    (hgood : goodRead src rid = true)
    (hns : containsRead dest rid = false) :
    ∃ rd, List.lookup rid src = some rd ∧
      copyCore src dest rid = some (dest ++ [(rid, rd)]) := by
  unfold goodRead at hgood
  cases hl : List.lookup rid src with
  | none => rw [hl] at hgood; simp at hgood
  | some rd =>
    cases hr : rd.runId with
    | none => rw [hl] at hgood; simp [Option.bind, hr] at hgood
    | some r =>
      refine ⟨rd, rfl, ?_⟩
      have : (⟨some r, rd.groups⟩ : ReadData) = rd := by
        cases rd with
        | mk ri g => simp at hr ⊢; exact hr.symm
      simp [copyCore, hl, hr, hns, this]

theorem copyCore_none_of_not_good (src dest : Container) (rid : String)
    (h : goodRead src rid = false) : copyCore src dest rid = none := by
  unfold goodRead at h
  cases hl : List.lookup rid src with
  | none => simp [copyCore, hl]
  | some rd =>
    cases hr : rd.runId with
    | none => simp [copyCore, hl, hr]
    | some r => rw [hl] at h; simp [Option.bind, hr] at h

theorem copyCore_none_of_contains (src dest : Container) (rid : String)
    (h : containsRead dest rid = true) : copyCore src dest rid = none := by
  cases hl : List.lookup rid src with
  | none => simp [copyCore, hl]
  | some rd =>
    cases hr : rd.runId with
    | none => simp [copyCore, hl, hr]
    | some r => simp [copyCore, hl, hr, h]

/-- C2 (counterexample): with the read `r` already present in the
destination, the binning-path copy skips silently, but the batch-path copy
attempts `create_read`, fails, and logs an error — it does not "return
success", and no membership check precedes the copy. -/
theorem idempotent_skip_counterexample :
    copyReadBinned [("r", ⟨some "run", [("g", "blob")]⟩)]
        [("r", ⟨some "run", [("g", "blob")]⟩)] "r"
      = ([("r", ⟨some "run", [("g", "blob")]⟩)], 0) ∧
    copyReadBatch [("r", ⟨some "run", [("g", "blob")]⟩)]
        [("r", ⟨some "run", [("g", "blob")]⟩)] "r"
      = ([("r", ⟨some "run", [("g", "blob")]⟩)], 1) := by
  decide

/-- C2 (amended): when the read id is already present in the destination,
the binning-path copy returns success leaving the destination unchanged
(detected by the membership pre-check), while the batch-path copy performs
no membership check: its `create_read` raises, the error is caught and
logged, and the destination is left unchanged. -/
theorem idempotent_skip_amended (src dest : Container) (rid : String)
    (h : containsRead dest rid = true) :
    copyReadBinned src dest rid = (dest, 0) ∧
    copyReadBatch src dest rid = (dest, 1) := by
  refine ⟨by simp [copyReadBinned, h], ?_⟩
  simp [copyReadBatch, copyCore_none_of_contains src dest rid h]

theorem idempotent_skip_amended_witness :
    containsRead [("r", (⟨some "run", []⟩ : ReadData))] "r" = true ∧
    copyReadBinned [] [("r", ⟨some "run", []⟩)] "r"
        = ([("r", ⟨some "run", []⟩)], 0) ∧
    copyReadBatch [] [("r", ⟨some "run", []⟩)] "r"
        = ([("r", ⟨some "run", []⟩)], 1) :=
  ⟨by decide, idempotent_skip_amended [] [("r", ⟨some "run", []⟩)] "r" (by decide)⟩

/-- C6: a successful per-read copy gives the destination read exactly the
source read's groups and its `run_id`. -/
theorem copy_round_trip (src dest d' : Container) (rid : String)
    (rd : ReadData) (hsrc : List.lookup rid src = some rd)
    (hcopy : copyCore src dest rid = some d') :
    ∃ rd', List.lookup rid d' = some rd' ∧ rd'.groups = rd.groups ∧
      rd'.runId = rd.runId := by
  cases hr : rd.runId with
  | none => simp [copyCore, hsrc, hr] at hcopy
  | some r =>
    by_cases hc : containsRead dest rid = true
    · simp [copyCore, hsrc, hr, hc] at hcopy
    · have hcf : containsRead dest rid = false := by simpa using hc
      have hd : d' = dest ++ [(rid, ⟨some r, rd.groups⟩)] := by
        simp [copyCore, hsrc, hr, hcf] at hcopy
        exact hcopy.symm
      subst hd
      refine ⟨⟨some r, rd.groups⟩, ?_, rfl, rfl⟩
      have hmem : rid ∉ dest.map Prod.fst := by
        intro hm
        rw [(containsRead_iff dest rid).mpr hm] at hcf
        exact Bool.true_eq_false.mp hcf
      rw [lookup_append, lookup_eq_none_of_not_mem hmem]
      simp [lookup_cons]

theorem copy_round_trip_witness :
    List.lookup "r" [("r", (⟨some "run", [("g", "blob")]⟩ : ReadData))]
        = some ⟨some "run", [("g", "blob")]⟩ ∧
    copyCore [("r", ⟨some "run", [("g", "blob")]⟩)] [] "r"
        = some [("r", ⟨some "run", [("g", "blob")]⟩)] ∧
    ∃ rd', List.lookup "r" [("r", (⟨some "run", [("g", "blob")]⟩ : ReadData))]
        = some rd' ∧ rd'.groups = [("g", "blob")] ∧ rd'.runId = some "run" :=
  ⟨by decide, by decide,
    copy_round_trip [("r", ⟨some "run", [("g", "blob")]⟩)] [] _ "r"
      ⟨some "run", [("g", "blob")]⟩ (by decide) (by decide)⟩

/-! ### Batch-mode step lemmas -/

/-- One per-read step either keeps the output index and increments the
per-output counter, or increments the output index and leaves the counter at
one (the reset to 0 happens inside the same rollover step). -/
theorem stepRead_cases (B : Int) (src : Container) (rid : String)
    (s : BatchState) :
    ((stepRead B src rid s).batchNum = s.batchNum ∧
      (stepRead B src rid s).readNum = s.readNum + 1) ∨
    ((stepRead B src rid s).batchNum = s.batchNum + 1 ∧
      (stepRead B src rid s).readNum = 1) := by
  unfold stepRead
  by_cases h : ((s.readNum : Int) ≥ B ∧ 0 < B)
  · right; simp [h, rollover]
  · left; simp [h]

theorem stepRead_batchNum_le (B : Int) (src : Container) (rid : String)
    (s : BatchState) : s.batchNum ≤ (stepRead B src rid s).batchNum := by
  rcases stepRead_cases B src rid s with ⟨h, _⟩ | ⟨h, _⟩ <;> omega

theorem stepFile_batchNum_le (B : Int) (s : BatchState) (c : Container) :
    s.batchNum ≤ (stepFile B s c).batchNum := by
  unfold stepFile
  induction readIds c generalizing s with
  | nil => simp
  | cons rid rest ih =>
    exact le_trans (stepRead_batchNum_le B c rid s) (ih _)

theorem runLoop_batchNum_le (B : Int) (s : BatchState)
    (files : List InputFile) :
    s.batchNum ≤ ((runLoop B s files).1).batchNum := by
  induction files generalizing s with
  | nil => simp [runLoop]
  | cons f rest ih =>
    cases f with
    | ok c => exact le_trans (stepFile_batchNum_le B s c) (ih _)
    | bad => simp [runLoop]

/-- C9: the batch cursor advances monotonically: each per-read step either
keeps `batch_num` and increments `read_num`, or increments `batch_num` and
resets `read_num` (leaving it at 1 after the same step's copy); the pair
strictly increases lexicographically, and `batch_num` never decreases over
any run of the file loop. -/
theorem batch_cursor_monotone (B : Int) :
    (∀ (src : Container) (rid : String) (s : BatchState),
      ((stepRead B src rid s).batchNum = s.batchNum ∧
        (stepRead B src rid s).readNum = s.readNum + 1) ∨
      ((stepRead B src rid s).batchNum = s.batchNum + 1 ∧
        (stepRead B src rid s).readNum = 1)) ∧
    (∀ (src : Container) (rid : String) (s : BatchState),
      s.batchNum < (stepRead B src rid s).batchNum ∨
      (s.batchNum = (stepRead B src rid s).batchNum ∧
        s.readNum < (stepRead B src rid s).readNum)) ∧
    (∀ (s : BatchState) (files : List InputFile),
      s.batchNum ≤ ((runLoop B s files).1).batchNum) := by
  refine ⟨stepRead_cases B, ?_, fun s files => runLoop_batchNum_le B s files⟩
  intro src rid s
  rcases stepRead_cases B src rid s with ⟨h1, h2⟩ | ⟨h1, h2⟩
  · right; omega
  · left; omega

/-! ### C10: eager creation of the first output -/

theorem stepFile_empty (B : Int) (s : BatchState) : stepFile B s [] = s := rfl

theorem runLoop_empty_inputs (B : Int) (s : BatchState)
    (files : List InputFile) (h : ∀ f ∈ files, f = InputFile.ok []) :
    runLoop B s files = (s, false) := by
  induction files generalizing s with
  | nil => rfl
  | cons f rest ih =>
    have hf := h f (List.mem_cons_self f rest)
    subst hf
    rw [runLoop, stepFile_empty]
    exact ih _ (fun g hg => h g (List.mem_cons_of_mem _ hg))

/-- C10: the first output container is open before any input is opened, and
a run over an empty file list, or over input files holding zero reads in
total, produces exactly one output container holding zero reads (and exits
normally). -/
theorem batch_eager_first_output (B : Int) (files : List InputFile)
    (h : ∀ f ∈ files, f = InputFile.ok []) :
    initState.openedIdxs = [0] ∧
    outputs (repackage_multi_to_multi B files).1 = [[]] ∧
    (repackage_multi_to_multi B files).1.openedIdxs = [0] ∧
    (repackage_multi_to_multi B files).2 = false := by
  unfold repackage_multi_to_multi
  rw [runLoop_empty_inputs B initState files h]
  exact ⟨rfl, rfl, rfl, rfl⟩

theorem batch_eager_first_output_witness :
    (∀ f ∈ ([] : List InputFile), f = InputFile.ok []) ∧
    (initState.openedIdxs = [0] ∧
      outputs (repackage_multi_to_multi 4000 []).1 = [[]] ∧
      (repackage_multi_to_multi 4000 []).1.openedIdxs = [0] ∧
      (repackage_multi_to_multi 4000 []).2 = false) :=
  ⟨by simp, batch_eager_first_output 4000 [] (by simp)⟩

/-! ### C1/C3 counterexamples -/

/-- C1 (counterexample): a two-file batch run whose first input fails to
open terminates abnormally and produces no output for the second, intact
file (its read `r` appears in no output container). -/
theorem batch_failure_isolation_counterexample :
    (repackage_multi_to_multi 10
        [InputFile.bad, InputFile.ok [("r", ⟨some "run", []⟩)]]).2 = true ∧
    outputs (repackage_multi_to_multi 10
        [InputFile.bad, InputFile.ok [("r", ⟨some "run", []⟩)]]).1 = [[]] := by
  decide

/-- C3 (counterexample): with batch size 10 and zero total input reads the
claimed count `ceil(T / B) = 0` is wrong — the run still produces one
(empty) output container, created eagerly. -/
theorem batch_sizing_counterexample :
    (0 + 10 - 1) / 10 = 0 ∧
    (outputs (repackage_multi_to_multi 10 [InputFile.ok []]).1).length = 1 := by
  decide

/-- C5 (counterexample): the line `"a\tb\t\n"` does not split into exactly
two tab-separated fields, yet `parse_csv` accepts it (the trailing
tab is removed by `strip()` before the split). -/
theorem parse_csv_counterexample :
    (splitTab "a\tb\t\n".data).length = 3 ∧
    parse_csv ["a\tb\t\n".data] = .ok [("a", "b")] :=
  ⟨by decide, by rfl⟩

/-! ### C1: what actually happens on an unopenable input file -/

theorem runLoop_map_ok (B : Int) (pre : List Container) (s : BatchState) :
    runLoop B s (pre.map InputFile.ok) = (pre.foldl (stepFile B) s, false) := by
  induction pre generalizing s with
  | nil => rfl
  | cons c rest ih => rw [List.map_cons, runLoop, ih, List.foldl_cons]

theorem runLoop_append_bad (B : Int) (pre : List Container)
    (post : List InputFile) (s : BatchState) :
    runLoop B s (pre.map InputFile.ok ++ InputFile.bad :: post)
      = (pre.foldl (stepFile B) s, true) := by
  induction pre generalizing s with
  | nil => rfl
  | cons c rest ih =>
    rw [List.map_cons, List.cons_append, runLoop, List.foldl_cons]
    exact ih _

/-- C1 (amended): an unopenable input file in batch mode leaves the file loop
at once: files before it are fully processed, files after it contribute
nothing, the run ends abnormally, and the `finally` still closes the output;
a failed per-read copy, by contrast, is logged and the loop continues with
the cursor advanced. -/
theorem batch_failure_aborts_amended (B : Int) (pre : List Container)
    (post : List InputFile) :
    repackage_multi_to_multi B (pre.map InputFile.ok ++ InputFile.bad :: post)
      = (finallyClose (pre.foldl (stepFile B) initState), true) ∧
    (∀ (src : Container) (rid : String) (s : BatchState),
      goodRead src rid = false →
      stepRead B src rid s =
        (let t := if (s.readNum : Int) ≥ B ∧ 0 < B then rollover s else s
         { t with readNum := t.readNum + 1, errors := t.errors + 1 })) := by
  constructor
  · unfold repackage_multi_to_multi
    rw [runLoop_append_bad B pre post initState]
  · intro src rid s h
    have hc : copyReadBatch src
        ((if (s.readNum : Int) ≥ B ∧ 0 < B then rollover s else s)).current rid
        = (((if (s.readNum : Int) ≥ B ∧ 0 < B then rollover s else s)).current, 1) := by
      rw [copyReadBatch, copyCore_none_of_not_good _ _ _ h]
    simp only [stepRead, hc]

theorem batch_failure_aborts_amended_witness :
    repackage_multi_to_multi 10
        ([].map InputFile.ok ++ InputFile.bad :: ([] : List InputFile))
      = (finallyClose (([] : List Container).foldl (stepFile 10) initState),
          true) ∧
    goodRead [] "r" = false ∧
    stepRead 10 [] "r" initState =
      { initState with readNum := 1, errors := 1 } := by
  refine ⟨(batch_failure_aborts_amended 10 [] []).1, by decide, ?_⟩
  have h := (batch_failure_aborts_amended 10 [] []).2 [] "r" initState
    (by decide)
  rw [h]
  norm_num [initState, rollover]

/-! ### C8: every opened output handle is closed on every exit path -/

/-- During the run the open output is exactly index `batch_num`, every
smaller index is closed, and exactly the indices up to `batch_num` were ever
opened. -/
def handleInv (s : BatchState) : Prop :=
  s.openedIdxs = List.range (s.batchNum + 1) ∧
  s.closedIdxs = List.range s.batchNum

theorem stepRead_handleInv (B : Int) (src : Container) (rid : String)
    (s : BatchState) (h : handleInv s) : handleInv (stepRead B src rid s) := by
  obtain ⟨h1, h2⟩ := h
  unfold stepRead
  by_cases hb : ((s.readNum : Int) ≥ B ∧ 0 < B)
  · cases hcb : copyReadBatch src (rollover s).current rid with
    | mk c e =>
      refine ⟨?_, ?_⟩ <;>
        simp [hb, rollover, hcb, h1, h2, List.range_succ]
  · cases hcb : copyReadBatch src s.current rid with
    | mk c e =>
      refine ⟨?_, ?_⟩ <;> simp [hb, hcb, h1, h2]

theorem stepFile_handleInv (B : Int) (s : BatchState) (c : Container)
    (h : handleInv s) : handleInv (stepFile B s c) := by
  unfold stepFile
  induction readIds c generalizing s with
  | nil => exact h
  | cons rid rest ih => exact ih _ (stepRead_handleInv B c rid s h)

theorem runLoop_handleInv (B : Int) (s : BatchState) (files : List InputFile)
    (h : handleInv s) : handleInv ((runLoop B s files).1) := by
  induction files generalizing s with
  | nil => exact h
  | cons f rest ih =>
    cases f with
    | ok c => exact ih _ (stepFile_handleInv B s c h)
    | bad => exact h

/-- C8: in every batch-mode run — normal or aborted by an exception — every
output container handle that was opened has been closed once the `finally`
clause has run. -/
theorem batch_all_handles_closed (B : Int) (files : List InputFile) :
    ∀ i ∈ ((repackage_multi_to_multi B files).1).openedIdxs,
      i ∈ ((repackage_multi_to_multi B files).1).closedIdxs := by
  intro i hi
  have hinv : handleInv ((runLoop B initState files).1) :=
    runLoop_handleInv B initState files ⟨rfl, rfl⟩
  obtain ⟨h1, h2⟩ := hinv
  unfold repackage_multi_to_multi finallyClose at hi ⊢
  simp only [h1, h2] at hi ⊢
  rw [← List.range_succ]
  exact hi

theorem batch_all_handles_closed_witness :
    0 ∈ ((repackage_multi_to_multi 10 [InputFile.bad]).1).openedIdxs ∧
    0 ∈ ((repackage_multi_to_multi 10 [InputFile.bad]).1).closedIdxs :=
  ⟨by decide, batch_all_handles_closed 10 [InputFile.bad] 0 (by decide)⟩

/-! ### C5: parse_csv -/

theorem parseLine_error_iff (line : List Char) :
    isError (parseLine line) = true ↔ (splitTab (pyStrip line)).length ≠ 2 := by
  unfold parseLine
  cases h : splitTab (pyStrip line) with
  | nil => simp [isError]
  | cons a t =>
    cases t with
    | nil => simp [isError]
    | cons b t2 =>
      cases t2 with
      | nil => simp [isError]
      | cons c t3 => simp [isError]

theorem parseCsvAux_cons (acc : List (String × String)) (l : List Char)
    (rest : List (List Char)) :
    parseCsvAux acc (l :: rest) =
      match parseLine l with
      | .ok (rid, grp) => parseCsvAux (dictSet acc rid grp) rest
      | .error e => .error e := by
  cases h : parseLine l with
  | ok p =>
    obtain ⟨rid, grp⟩ := p
    show (do
      let (rid, grp) ← parseLine l
      parseCsvAux (dictSet acc rid grp) rest) = _
    rw [h]
    rfl
  | error e =>
    show (do
      let (rid, grp) ← parseLine l
      parseCsvAux (dictSet acc rid grp) rest) = _
    rw [h]
    rfl

theorem parseCsvAux_error_iff (lines : List (List Char))
    (acc : List (String × String)) :
    isError (parseCsvAux acc lines) = true ↔
      ∃ line ∈ lines, isError (parseLine line) = true := by
  induction lines generalizing acc with
  | nil => simp [parseCsvAux, isError]
  | cons l rest ih =>
    rw [parseCsvAux_cons]
    cases h : parseLine l with
    | error e => simp [isError, h]
    | ok p =>
      obtain ⟨rid, grp⟩ := p
      rw [show isError
          (match (Except.ok (rid, grp) :
              Except String (String × String)) with
            | .ok (rid, grp) => parseCsvAux (dictSet acc rid grp) rest
            | .error e => .error e)
          = isError (parseCsvAux (dictSet acc rid grp) rest) from rfl]
      rw [ih]
      simp [h, isError]

theorem parseCsvAux_lookup (lines : List (List Char))
    (acc table : List (String × String)) (rid : String)
    (h : parseCsvAux acc lines = .ok table) :
    List.lookup rid table =
      lines.foldl
        (fun a line =>
          match parseLine line with
          | .ok (r, g) => if r = rid then some g else a
          | .error _ => a)
        (List.lookup rid acc) := by
  induction lines generalizing acc with
  | nil =>
    simp only [parseCsvAux, Except.ok.injEq] at h
    rw [h]
    rfl
  | cons l rest ih =>
    rw [parseCsvAux_cons] at h
    rw [List.foldl_cons]
    cases hl : parseLine l with
    | error e =>
      rw [hl] at h
      exact absurd h (by simp)
    | ok p =>
      obtain ⟨r, g⟩ := p
      rw [hl] at h
      simp only [hl]
      rw [ih _ h, lookup_dictSet]
      by_cases hr : r = rid
      · simp [hr]
      · rw [if_neg hr, if_neg (fun hh => hr hh.symm)]

/-- C5 (amended): `parse_csv` fails iff some line, after stripping leading
and trailing whitespace, does not split into exactly two tab-separated
fields; on success the last line for a given read id wins; the failure
propagates through `main`'s binning branch, which runs `parse_csv` before
any copying. -/
theorem parse_csv_spec_amended (lines : List (List Char)) :
    (isError (parse_csv lines) = true ↔
      ∃ line ∈ lines, (splitTab (pyStrip line)).length ≠ 2) ∧
    (∀ table, parse_csv lines = .ok table →
      ∀ rid, List.lookup rid table = lastLabel lines rid) ∧
    (∀ (inputs : List (Option Container × String)) (outputRoot : String)
        (badDest : List BinPath),
      isError (mainBinning lines inputs outputRoot badDest)
        = isError (parse_csv lines)) := by
  refine ⟨?_, ?_, ?_⟩
  · rw [parse_csv, parseCsvAux_error_iff]
    constructor
    · rintro ⟨line, hm, he⟩
      exact ⟨line, hm, (parseLine_error_iff line).mp he⟩
    · rintro ⟨line, hm, he⟩
      exact ⟨line, hm, (parseLine_error_iff line).mpr he⟩
  · intro table h rid
    exact parseCsvAux_lookup lines [] table rid h
  · intro inputs outputRoot badDest
    unfold mainBinning
    cases h : parse_csv lines with
    | error e => simp [h, isError]
    | ok binning => simp [h, isError]

theorem parse_csv_spec_amended_witness :
    parse_csv ["a\tx\n".data, "a\ty\n".data] = .ok [("a", "y")] ∧
    List.lookup "a" [("a", "y")]
      = lastLabel ["a\tx\n".data, "a\ty\n".data] "a" ∧
    lastLabel ["a\tx\n".data, "a\ty\n".data] "a" = some "y" :=
  ⟨by rfl,
    (parse_csv_spec_amended ["a\tx\n".data, "a\ty\n".data]).2.1
      [("a", "y")] (by rfl) "a",
    by rfl⟩

/-! ### C3: batch sizing -/

/-- The per-read work items contributed by one input file, in order. -/
def filePairs (c : Container) : List (Container × String) :=
  (readIds c).map fun rid => (c, rid)

/-- The read loop, flattened over a list of (source, read id) items. -/
def runReads (B : Int) (l : List (Container × String)) (s : BatchState) :
    BatchState :=
  l.foldl (fun st p => stepRead B p.1 p.2 st) s

theorem stepFile_eq_runReads (B : Int) (s : BatchState) (c : Container) :
    stepFile B s c = runReads B (filePairs c) s := by
  unfold stepFile runReads filePairs
  rw [List.foldl_map]

theorem foldl_stepFile_eq_runReads (B : Int) (files : List Container)
    (s : BatchState) :
    files.foldl (stepFile B) s
      = runReads B (files.flatMap filePairs) s := by
  induction files generalizing s with
  | nil => rfl
  | cons c rest ih =>
    rw [List.foldl_cons, List.flatMap_cons]
    unfold runReads
    rw [List.foldl_append]
    rw [← runReads, ← runReads, ← ih, stepFile_eq_runReads]

/-- The loop invariant of the fixed-size policy with batch size `b ≥ 1`,
after the reads `processed` have all been copied successfully. -/
structure SizeInv (b : Nat) (processed : List String) (s : BatchState) :
    Prop where
  fin_len : ∀ c ∈ s.finished, c.length = b
  cur_len : s.current.length = s.readNum
  cur_ids : ∀ rid ∈ readIds s.current, rid ∈ processed
  count : processed.length = b * s.finished.length + s.readNum
  read_le : s.readNum ≤ b
  read_pos : processed ≠ [] → 1 ≤ s.readNum
  no_errors : s.errors = 0

theorem sizeInv_init (b : Nat) : SizeInv b [] initState :=
  ⟨by simp [initState], rfl, by simp [initState, readIds], by simp [initState],
    Nat.zero_le b, fun h => absurd rfl h, rfl⟩

theorem stepRead_sizeInv (b : Nat) (hb : 1 ≤ b) (src : Container)
    (rid : String) (s : BatchState) (processed : List String)
    (hgood : goodRead src rid = true) (hrid : rid ∉ processed)
    (hinv : SizeInv b processed s) :
    SizeInv b (processed ++ [rid]) (stepRead (b : Int) src rid s) := by
  obtain ⟨finLen, curLen, curIds, count, readLe, readPos, noErr⟩ := hinv
  by_cases hroll : ((s.readNum : Int) ≥ (b : Int) ∧ 0 < (b : Int))
  · -- rollover: s.readNum = b
    have hrn : s.readNum = b := le_antisymm readLe (by exact_mod_cast hroll.1)
    obtain ⟨rd, hlk, hcopy⟩ := copyCore_success src [] rid hgood
      (by simp [containsRead, readIds])
    have hcb : copyReadBatch src [] rid = ([(rid, rd)], 0) := by
      rw [copyReadBatch, hcopy]
      rfl
    have hstate : stepRead (b : Int) src rid s =
        { finished := s.finished ++ [s.current], current := [(rid, rd)],
          readNum := 1, batchNum := s.batchNum + 1,
          openedIdxs := s.openedIdxs ++ [s.batchNum + 1],
          closedIdxs := s.closedIdxs ++ [s.batchNum],
          errors := s.errors } := by
      unfold stepRead
      rw [if_pos hroll]
      simp [rollover, hcb]
    rw [hstate]
    refine ⟨?_, ?_, ?_, ?_, ?_, ?_, ?_⟩
    · intro c hc
      simp only [List.mem_append, List.mem_singleton] at hc
      rcases hc with hc | hc
      · exact finLen c hc
      · rw [hc, curLen, hrn]
    · simp
    · intro r hr
      simp [readIds] at hr
      simp [hr]
    · simp only [List.length_append, List.length_singleton, count, hrn]
      ring
    · exact hb
    · intro _
      exact le_refl 1
    · exact noErr
  · -- no rollover: s.readNum < b
    have hlt : s.readNum < b := by
      rcases not_and_or.mp hroll with h | h <;> omega
    have hns : containsRead s.current rid = false := by
      cases hcr : containsRead s.current rid
      · rfl
      · exact absurd (curIds rid ((containsRead_iff _ _).mp hcr)) hrid
    obtain ⟨rd, hlk, hcopy⟩ := copyCore_success src s.current rid hgood hns
    have hcb : copyReadBatch src s.current rid
        = (s.current ++ [(rid, rd)], 0) := by
      rw [copyReadBatch, hcopy]
    have hstate : stepRead (b : Int) src rid s =
        { s with
          current := s.current ++ [(rid, rd)]
          readNum := s.readNum + 1 } := by
      unfold stepRead
      rw [if_neg hroll]
      simp [hcb]
    rw [hstate]
    refine ⟨fun c hc => finLen c hc, ?_, ?_, ?_, ?_, ?_, noErr⟩
    · show (s.current ++ [(rid, rd)]).length = s.readNum + 1
      simp [curLen]
    · intro r hr
      simp only [readIds, List.map_append, List.mem_append] at hr
      rcases hr with hr | hr
      · exact List.mem_append_left _ (curIds r hr)
      · simp at hr
        simp [hr]
    · show (processed ++ [rid]).length = b * s.finished.length + (s.readNum + 1)
      simp only [List.length_append, List.length_singleton]
      omega
    · show s.readNum + 1 ≤ b
      omega
    · intro _
      show 1 ≤ s.readNum + 1
      omega

theorem runReads_sizeInv (b : Nat) (hb : 1 ≤ b)
    (l : List (Container × String)) (processed : List String)
    (s : BatchState)
    (hgoodl : ∀ p ∈ l, goodRead p.1 p.2 = true)
    (hnodup : (processed ++ l.map Prod.snd).Nodup)
    (hinv : SizeInv b processed s) :
    SizeInv b (processed ++ l.map Prod.snd) (runReads (b : Int) l s) := by
  induction l generalizing processed s with
  | nil => simpa using hinv
  | cons p rest ih =>
    obtain ⟨src, rid⟩ := p
    have hrid : rid ∉ processed := by
      intro hmem
      rw [List.map_cons] at hnodup
      have := List.Nodup.not_mem
        (List.nodup_middle.mp (by simpa using hnodup))
      exact this (by simp [hmem])
    have hstep := stepRead_sizeInv b hb src rid s processed
      (hgoodl (src, rid) (List.mem_cons_self _ _)) hrid hinv
    have h2 := ih (processed ++ [rid]) (stepRead (b : Int) src rid s)
      (fun q hq => hgoodl q (List.mem_cons_of_mem _ hq))
      (by simpa using hnodup) hstep
    simpa [runReads] using h2

/-- The invariant of the unbounded case `batch_size ≤ 0`: no rollover ever
happens, every read lands in the first output container. -/
structure NoRollInv (processed : List String) (s : BatchState) : Prop where
  fin : s.finished = []
  ids : readIds s.current = processed
  no_errors : s.errors = 0

theorem stepRead_noRollInv (B : Int) (hB : B ≤ 0) (src : Container)
    (rid : String) (s : BatchState) (processed : List String)
    (hgood : goodRead src rid = true) (hrid : rid ∉ processed)
    (hinv : NoRollInv processed s) :
    NoRollInv (processed ++ [rid]) (stepRead B src rid s) := by
  obtain ⟨fin, ids, noErr⟩ := hinv
  have hroll : ¬((s.readNum : Int) ≥ B ∧ 0 < B) := by
    rintro ⟨-, h⟩
    omega
  have hns : containsRead s.current rid = false := by
    cases hcr : containsRead s.current rid
    · rfl
    · exact absurd (ids ▸ (containsRead_iff _ _).mp hcr) hrid
  obtain ⟨rd, hlk, hcopy⟩ := copyCore_success src s.current rid hgood hns
  have hcb : copyReadBatch src s.current rid
      = (s.current ++ [(rid, rd)], 0) := by
    rw [copyReadBatch, hcopy]
  have hstate : stepRead B src rid s =
      { s with
        current := s.current ++ [(rid, rd)]
        readNum := s.readNum + 1 } := by
    unfold stepRead
    rw [if_neg hroll]
    simp [hcb]
  rw [hstate]
  refine ⟨fin, ?_, noErr⟩
  show readIds (s.current ++ [(rid, rd)]) = processed ++ [rid]
  rw [readIds, List.map_append, ← readIds, ids]
  rfl

theorem runReads_noRollInv (B : Int) (hB : B ≤ 0)
    (l : List (Container × String)) (processed : List String)
    (s : BatchState)
    (hgoodl : ∀ p ∈ l, goodRead p.1 p.2 = true)
    (hnodup : (processed ++ l.map Prod.snd).Nodup)
    (hinv : NoRollInv processed s) :
    NoRollInv (processed ++ l.map Prod.snd) (runReads B l s) := by
  induction l generalizing processed s with
  | nil => simpa using hinv
  | cons p rest ih =>
    obtain ⟨src, rid⟩ := p
    have hrid : rid ∉ processed := by
      intro hmem
      rw [List.map_cons] at hnodup
      have := List.Nodup.not_mem
        (List.nodup_middle.mp (by simpa using hnodup))
      exact this (by simp [hmem])
    have hstep := stepRead_noRollInv B hB src rid s processed
      (hgoodl (src, rid) (List.mem_cons_self _ _)) hrid hinv
    have h2 := ih (processed ++ [rid]) (stepRead B src rid s)
      (fun q hq => hgoodl q (List.mem_cons_of_mem _ hq))
      (by simpa using hnodup) hstep
    simpa [runReads] using h2

theorem map_snd_flatMap_filePairs (files : List Container) :
    (files.flatMap filePairs).map Prod.snd = files.flatMap readIds := by
  rw [List.map_flatMap]
  simp [filePairs, List.map_map, Function.comp]

theorem mem_flatMap_filePairs {files : List Container}
    {p : Container × String} (hp : p ∈ files.flatMap filePairs) :
    p.1 ∈ files ∧ p.2 ∈ readIds p.1 := by
  rw [List.mem_flatMap] at hp
  obtain ⟨c, hc, hpc⟩ := hp
  unfold filePairs at hpc
  rw [List.mem_map] at hpc
  obtain ⟨rid, hrid, hpr⟩ := hpc
  rw [← hpr]
  exact ⟨hc, hrid⟩

/-- C3 (amended): in a batch run over openable files whose reads all copy
successfully (distinct ids, `run_id` present), the run exits normally with
no logged errors; with `B > 0` it produces `max 1 (ceil(T/B))` output
containers — `ceil(T/B)` whenever `T ≥ 1`, but one (empty, eagerly created)
container when `T = 0` — of which all but the last hold exactly `B` reads
and the last holds the remainder; with `B ≤ 0` a single output container
holds all `T` reads. -/
theorem batch_sizing_amended (B : Int) (files : List Container)
    (hgood : ∀ c ∈ files, ∀ rid ∈ readIds c, goodRead c rid = true)
    (hnodup : (files.flatMap readIds).Nodup) :
    (repackage_multi_to_multi B (files.map InputFile.ok)).2 = false ∧
    (repackage_multi_to_multi B (files.map InputFile.ok)).1.errors = 0 ∧
    (0 < B →
      (outputs (repackage_multi_to_multi B (files.map InputFile.ok)).1).length
        = max 1 (((files.flatMap readIds).length + B.toNat - 1) / B.toNat) ∧
      (∀ c ∈ (repackage_multi_to_multi B (files.map InputFile.ok)).1.finished,
        c.length = B.toNat) ∧
      (repackage_multi_to_multi B (files.map InputFile.ok)).1.current.length
        = (files.flatMap readIds).length - B.toNat *
          (repackage_multi_to_multi B (files.map InputFile.ok)).1.finished.length) ∧
    (B ≤ 0 →
      (repackage_multi_to_multi B (files.map InputFile.ok)).1.finished = [] ∧
      readIds (repackage_multi_to_multi B (files.map InputFile.ok)).1.current
        = files.flatMap readIds) := by
  have hrun : repackage_multi_to_multi B (files.map InputFile.ok)
      = (finallyClose (runReads B (files.flatMap filePairs) initState),
          false) := by
    unfold repackage_multi_to_multi
    rw [runLoop_map_ok, foldl_stepFile_eq_runReads]
  have hgoodl : ∀ p ∈ files.flatMap filePairs, goodRead p.1 p.2 = true := by
    intro p hp
    obtain ⟨h1, h2⟩ := mem_flatMap_filePairs hp
    exact hgood p.1 h1 p.2 h2
  have hnodup' :
      (([] : List String)
        ++ (files.flatMap filePairs).map Prod.snd).Nodup := by
    rw [List.nil_append, map_snd_flatMap_filePairs]
    exact hnodup
  refine ⟨by rw [hrun], ?_, ?_, ?_⟩
  · -- no errors
    rcases Int.le_or_lt B 0 with hB | hB
    · have hinv := runReads_noRollInv B hB (files.flatMap filePairs) []
        initState hgoodl hnodup' ⟨rfl, rfl, rfl⟩
      rw [hrun]
      exact hinv.no_errors
    · have hb1 : 1 ≤ B.toNat := by omega
      have hBb : ((B.toNat : Int)) = B := Int.toNat_of_nonneg (le_of_lt hB)
      have hinv := runReads_sizeInv B.toNat hb1 (files.flatMap filePairs) []
        initState hgoodl hnodup' (sizeInv_init B.toNat)
      rw [hBb] at hinv
      rw [hrun]
      exact hinv.no_errors
  · -- 0 < B
    intro hB
    have hb1 : 1 ≤ B.toNat := by omega
    have hBb : ((B.toNat : Int)) = B := Int.toNat_of_nonneg (le_of_lt hB)
    have hinv := runReads_sizeInv B.toNat hb1 (files.flatMap filePairs) []
      initState hgoodl hnodup' (sizeInv_init B.toNat)
    rw [hBb] at hinv
    set s := runReads B (files.flatMap filePairs) initState with hs
    set b := B.toNat with hbdef
    set T := (files.flatMap readIds).length with hT
    have hTlen : ([] ++ (files.flatMap filePairs).map Prod.snd).length = T := by
      rw [List.nil_append, map_snd_flatMap_filePairs]
    obtain ⟨finLen, curLen, curIds, count, readLe, readPos, noErr⟩ := hinv
    rw [hTlen] at count
    refine ⟨?_, ?_, ?_⟩
    · -- output count
      rw [hrun]
      show (outputs (finallyClose s)).length = max 1 ((T + b - 1) / b)
      have houts : (outputs (finallyClose s)).length = s.finished.length + 1 := by
        simp [outputs, finallyClose]
      rw [houts]
      rcases Nat.eq_zero_or_pos T with hT0 | hTpos
      · have hk0 : s.finished.length = 0 ∧ s.readNum = 0 := by
          constructor <;> nlinarith [count, hT0]
        rw [hk0.1, hT0]
        have : (0 + b - 1) / b = 0 := Nat.div_eq_of_lt (by omega)
        rw [this]
        simp
      · have hr1 : 1 ≤ s.readNum := by
          apply readPos
          intro hnil
          rw [hnil] at hTlen
          simp at hTlen
          omega
        have harith : T + b - 1 = b * (s.finished.length + 1) + (s.readNum - 1) := by
          rw [count]
          ring_nf
          omega
        rw [harith, Nat.mul_add_div (by omega),
          Nat.div_eq_of_lt (by omega), Nat.add_zero,
          Nat.max_eq_right (by omega)]
    · -- every finished container has exactly b reads
      rw [hrun]
      intro c hc
      exact finLen c hc
    · -- the open container holds the remainder
      rw [hrun]
      show s.current.length = T - b * s.finished.length
      omega
  · -- B ≤ 0
    intro hB
    have hinv := runReads_noRollInv B hB (files.flatMap filePairs) []
      initState hgoodl hnodup' ⟨rfl, rfl, rfl⟩
    rw [hrun]
    refine ⟨hinv.fin, ?_⟩
    have := hinv.ids
    rw [List.nil_append, map_snd_flatMap_filePairs] at this
    exact this

/-- Test fixture: a container of `n` reads with distinct ids derived from a
tag character, each carrying a `run_id`. -/
def mkContainer (tag : Char) (n : Nat) : Container :=
  (List.range n).map fun i =>
    (String.mk (tag :: List.replicate i 'x'), ⟨some "run", []⟩)

set_option maxRecDepth 40000 in
theorem batch_sizing_amended_witness :
    (∀ c ∈ [mkContainer 'a' 10, mkContainer 'b' 5, mkContainer 'c' 7],
      ∀ rid ∈ readIds c, goodRead c rid = true) ∧
    (([mkContainer 'a' 10, mkContainer 'b' 5,
        mkContainer 'c' 7].flatMap readIds).Nodup) ∧
    (outputs (repackage_multi_to_multi 10
        ([mkContainer 'a' 10, mkContainer 'b' 5,
          mkContainer 'c' 7].map InputFile.ok)).1).length
      = max 1 ((([mkContainer 'a' 10, mkContainer 'b' 5,
          mkContainer 'c' 7].flatMap readIds).length
            + (10 : Int).toNat - 1) / (10 : Int).toNat) ∧
    (outputs (repackage_multi_to_multi 10
        ([mkContainer 'a' 10, mkContainer 'b' 5,
          mkContainer 'c' 7].map InputFile.ok)).1).map List.length
      = [10, 10, 2] :=
  ⟨by decide, by decide,
    ((batch_sizing_amended 10
      [mkContainer 'a' 10, mkContainer 'b' 5, mkContainer 'c' 7]
      (by decide) (by decide)).2.2.1 (by decide)).1,
    by decide⟩

/-! ### C4/C7: binning-path lemmas -/

theorem fsGet_fsSet (fs : FS) (p : BinPath) (c : Container) (q : BinPath) :
    fsGet (fsSet fs p c) q = if q = p then c else fsGet fs q := by
  unfold fsGet fsSet
  rw [lookup_dictSet]
  by_cases h : q = p <;> simp [h]

theorem groupOf_binnedAdd (b : List (String × List String)) (lbl rid : String)
    (lbl' : String) :
    groupOf (binnedAdd b lbl rid) lbl' =
      if lbl' = lbl then groupOf b lbl' ++ [rid] else groupOf b lbl' := by
  unfold binnedAdd groupOf
  rw [lookup_dictSet]
  by_cases h : lbl' = lbl <;> simp [h]

theorem keys_binnedAdd_nodup (b : List (String × List String))
    (lbl rid : String) (h : (b.map Prod.fst).Nodup) :
    ((binnedAdd b lbl rid).map Prod.fst).Nodup := by
  unfold binnedAdd
  rw [keys_dictSet]
  by_cases hc : lbl ∈ b.map Prod.fst
  · simpa [hc] using h
  · simp only [hc, if_false]
    simpa [List.nodup_append, hc] using h

theorem mem_keys_binnedAdd (b : List (String × List String))
    (lbl rid : String) (lbl' : String) :
    lbl' ∈ (binnedAdd b lbl rid).map Prod.fst ↔
      lbl' ∈ b.map Prod.fst ∨ lbl' = lbl := by
  unfold binnedAdd
  rw [keys_dictSet]
  by_cases hc : lbl ∈ b.map Prod.fst
  · simp only [hc, if_true]
    constructor
    · exact fun h => Or.inl h
    · rintro (h | h)
      · exact h
      · exact h ▸ hc
  · simp [hc]

theorem buildBinned_keys_nodup (binning : List (String × String))
    (ids : List String) :
    ((buildBinned binning ids).map Prod.fst).Nodup := by
  unfold buildBinned
  suffices h : ∀ acc : List (String × List String), (acc.map Prod.fst).Nodup →
      ((ids.foldl
        (fun b rid =>
          match List.lookup rid binning with
          | some lbl => binnedAdd b lbl rid
          | none => b) acc).map Prod.fst).Nodup by
    exact h [] (by simp)
  induction ids with
  | nil => intro acc h; exact h
  | cons rid rest ih =>
    intro acc h
    rw [List.foldl_cons]
    cases hl : List.lookup rid binning with
    | none => exact ih acc h
    | some lbl => exact ih _ (keys_binnedAdd_nodup acc lbl rid h)

theorem groupOf_buildBinned (binning : List (String × String))
    (ids : List String) (lbl : String) :
    groupOf (buildBinned binning ids) lbl =
      ids.filter fun rid => decide (List.lookup rid binning = some lbl) := by
  unfold buildBinned
  suffices h : ∀ acc : List (String × List String),
      groupOf (ids.foldl
        (fun b rid =>
          match List.lookup rid binning with
          | some lbl => binnedAdd b lbl rid
          | none => b) acc) lbl
      = groupOf acc lbl ++
        (ids.filter fun rid => decide (List.lookup rid binning = some lbl)) by
    rw [h []]
    simp [groupOf]
  induction ids with
  | nil => intro acc; simp
  | cons rid rest ih =>
    intro acc
    rw [List.foldl_cons, List.filter_cons]
    cases hl : List.lookup rid binning with
    | none =>
      rw [ih acc]
      simp [hl]
    | some l0 =>
      rw [ih _]
      rw [groupOf_binnedAdd]
      by_cases hll : l0 = lbl
      · subst hll
        simp [hl]
      · have : ¬(lbl = l0) := fun h => hll h.symm
        simp only [this, if_false]
        have : decide (some l0 = some lbl) = false := by
          simp [hll]
        simp [hl, hll]

/-- The labels appearing in `buildBinned` are the looked-up labels of table
reads. -/
theorem mem_keys_buildBinned (binning : List (String × String))
    (ids : List String) (lbl : String) :
    lbl ∈ (buildBinned binning ids).map Prod.fst ↔
      ∃ rid ∈ ids, List.lookup rid binning = some lbl := by
  unfold buildBinned
  suffices h : ∀ acc : List (String × List String),
      (lbl ∈ (ids.foldl
        (fun b rid =>
          match List.lookup rid binning with
          | some lbl => binnedAdd b lbl rid
          | none => b) acc).map Prod.fst ↔
        lbl ∈ acc.map Prod.fst ∨ ∃ rid ∈ ids, List.lookup rid binning = some lbl) by
    rw [h []]
    simp
  induction ids with
  | nil => intro acc; simp
  | cons rid rest ih =>
    intro acc
    rw [List.foldl_cons]
    cases hl : List.lookup rid binning with
    | none =>
      rw [ih acc]
      constructor
      · rintro (h | h)
        · exact Or.inl h
        · exact Or.inr (by
            obtain ⟨r, hr, hrl⟩ := h
            exact ⟨r, List.mem_cons_of_mem _ hr, hrl⟩)
      · rintro (h | ⟨r, hr, hrl⟩)
        · exact Or.inl h
        · rcases List.mem_cons.mp hr with rfl | hr
          · rw [hl] at hrl; exact absurd hrl (by simp)
          · exact Or.inr ⟨r, hr, hrl⟩
    | some l0 =>
      rw [ih _]
      rw [mem_keys_binnedAdd]
      constructor
      · rintro ((h | h) | h)
        · exact Or.inl h
        · exact Or.inr ⟨rid, List.mem_cons_self _ _, by rw [hl, h]⟩
        · obtain ⟨r, hr, hrl⟩ := h
          exact Or.inr ⟨r, List.mem_cons_of_mem _ hr, hrl⟩
      · rintro (h | ⟨r, hr, hrl⟩)
        · exact Or.inl (Or.inl h)
        · rcases List.mem_cons.mp hr with rfl | hr
          · rw [hl] at hrl
            exact Or.inl (Or.inr (Option.some.inj hrl).symm)
          · exact Or.inr ⟨r, hr, hrl⟩

theorem containsRead_append (dest : Container) (x : String × ReadData)
    (rid : String) :
    containsRead (dest ++ [x]) rid = true ↔
      containsRead dest rid = true ∨ rid = x.1 := by
  simp [containsRead, readIds, List.contains, eq_comm]

theorem containsRead_copyReadBinned (multi d : Container) (r rid : String) :
    containsRead (copyReadBinned multi d r).1 rid = true ↔
      containsRead d rid = true ∨ (rid = r ∧ goodRead multi r = true) := by
  unfold copyReadBinned
  by_cases hc : containsRead d r = true
  · simp only [hc, if_true]
    constructor
    · exact fun h => Or.inl h
    · rintro (h | ⟨rfl, -⟩)
      · exact h
      · exact hc
  · have hcf : containsRead d r = false := by simpa using hc
    rw [if_neg hc]
    cases hg : goodRead multi r with
    | false =>
      rw [copyCore_none_of_not_good multi d r hg]
      simp
    | true =>
      obtain ⟨rd, hlk, hcopy⟩ := copyCore_success multi d r hg hcf
      rw [hcopy]
      show containsRead (d ++ [(r, rd)]) rid = true ↔ _
      rw [containsRead_append]
      simp

theorem containsRead_copyAll (multi dest : Container) (rids : List String)
    (rid : String) :
    containsRead (copyAll multi dest rids).1 rid = true ↔
      containsRead dest rid = true ∨
        (rid ∈ rids ∧ goodRead multi rid = true) := by
  unfold copyAll
  suffices h : ∀ acc : Container × Nat,
      (containsRead (rids.foldl
        (fun acc rid =>
          let r := copyReadBinned multi acc.1 rid
          (r.1, acc.2 + r.2)) acc).1 rid = true ↔
        containsRead acc.1 rid = true ∨
          (rid ∈ rids ∧ goodRead multi rid = true)) by
    exact h (dest, 0)
  induction rids with
  | nil => intro acc; simp
  | cons r rest ih =>
    intro acc
    rw [List.foldl_cons]
    rw [ih]
    rw [containsRead_copyReadBinned]
    constructor
    · rintro ((h | ⟨rfl, hg⟩) | ⟨hm, hg⟩)
      · exact Or.inl h
      · exact Or.inr ⟨List.mem_cons_self _ _, hg⟩
      · exact Or.inr ⟨List.mem_cons_of_mem _ hm, hg⟩
    · rintro (h | ⟨hm, hg⟩)
      · exact Or.inl (Or.inl h)
      · rcases List.mem_cons.mp hm with rfl | hm
        · exact Or.inl (Or.inr ⟨rfl, hg⟩)
        · exact Or.inr ⟨hm, hg⟩

theorem processLabel_fs (multi : Container) (badDest : List BinPath)
    (fs : FS) (p : BinPath) (rids : List String) :
    (processLabel multi badDest fs p rids).1 =
      if badDest.contains p then fs
      else fsSet fs p (copyAll multi (fsGet fs p) rids).1 := by
  unfold processLabel
  by_cases h : p ∈ badDest <;> simp [h]

theorem fsGet_processLabel_ne (multi : Container) (badDest : List BinPath)
    (fs : FS) (p : BinPath) (rids : List String) (q : BinPath) (hq : q ≠ p) :
    fsGet (processLabel multi badDest fs p rids).1 q = fsGet fs q := by
  rw [processLabel_fs]
  by_cases h : badDest.contains p
  · rw [if_pos h]
  · rw [if_neg h, fsGet_fsSet, if_neg hq]

theorem binFold_cons (multi : Container) (outputRoot basename : String)
    (badDest : List BinPath) (g : String × List String)
    (rest : List (String × List String)) (acc : FS × Nat) :
    binFold multi outputRoot basename badDest (g :: rest) acc =
      binFold multi outputRoot basename badDest rest
        ((processLabel multi badDest acc.1 ⟨outputRoot, g.1, basename⟩ g.2).1,
          acc.2 +
            (processLabel multi badDest acc.1
              ⟨outputRoot, g.1, basename⟩ g.2).2) := rfl

theorem binFold_fsGet_untouched (multi : Container)
    (outputRoot basename : String) (badDest : List BinPath)
    (groups : List (String × List String)) (acc : FS × Nat) (q : BinPath)
    (hq : ∀ g ∈ groups, q ≠ ⟨outputRoot, g.1, basename⟩) :
    fsGet (binFold multi outputRoot basename badDest groups acc).1 q
      = fsGet acc.1 q := by
  induction groups generalizing acc with
  | nil => rfl
  | cons g rest ih =>
    rw [binFold_cons]
    rw [ih _ (fun g' hg' => hq g' (List.mem_cons_of_mem _ hg'))]
    exact fsGet_processLabel_ne multi badDest acc.1 _ g.2 q
      (hq g (List.mem_cons_self _ _))

theorem binFold_fsGet_target (multi : Container)
    (outputRoot basename : String) (badDest : List BinPath)
    (groups : List (String × List String)) (acc : FS × Nat)
    (lbl : String) (rids : List String)
    (hmem : (lbl, rids) ∈ groups) (hkeys : (groups.map Prod.fst).Nodup) :
    fsGet (binFold multi outputRoot basename badDest groups acc).1
        ⟨outputRoot, lbl, basename⟩
      = if badDest.contains ⟨outputRoot, lbl, basename⟩ then
          fsGet acc.1 ⟨outputRoot, lbl, basename⟩
        else
          (copyAll multi (fsGet acc.1 ⟨outputRoot, lbl, basename⟩) rids).1 := by
  induction groups generalizing acc with
  | nil => simp at hmem
  | cons g rest ih =>
    obtain ⟨l0, r0⟩ := g
    rw [List.map_cons, List.nodup_cons] at hkeys
    by_cases hl : l0 = lbl
    · subst hl
      have hhd : r0 = rids := by
        rcases List.mem_cons.mp hmem with h | h
        · exact (Prod.mk.injEq _ _ _ _ ▸ h.symm).2
        · exact absurd (List.mem_map_of_mem Prod.fst h) hkeys.1
      subst hhd
      rw [binFold_cons]
      rw [binFold_fsGet_untouched multi outputRoot basename badDest rest _
        ⟨outputRoot, l0, basename⟩ (fun g' hg' => by
          intro hpath
          rw [BinPath.mk.injEq] at hpath
          refine hkeys.1 ?_
          rw [hpath.2.1]
          exact List.mem_map.mpr ⟨g', hg', rfl⟩)]
      rw [processLabel_fs]
      by_cases hbad : badDest.contains ⟨outputRoot, l0, basename⟩
      · rw [if_pos hbad, if_pos hbad]
      · rw [if_neg hbad, if_neg hbad, fsGet_fsSet, if_pos rfl]
    · have hmem' : (lbl, rids) ∈ rest := by
        rcases List.mem_cons.mp hmem with h | h
        · exact absurd ((Prod.mk.injEq _ _ _ _ ▸ h.symm).1) hl
        · exact h
      rw [binFold_cons]
      rw [ih _ hmem' hkeys.2]
      have hne : (⟨outputRoot, lbl, basename⟩ : BinPath)
          ≠ ⟨outputRoot, l0, basename⟩ := by
        intro h
        rw [BinPath.mk.injEq] at h
        exact hl h.2.1.symm
      rw [fsGet_processLabel_ne multi badDest acc.1 _ r0 _ hne]

theorem binFold_errs_mono (multi : Container)
    (outputRoot basename : String) (badDest : List BinPath)
    (groups : List (String × List String)) (acc : FS × Nat) :
    acc.2 ≤ (binFold multi outputRoot basename badDest groups acc).2 := by
  induction groups generalizing acc with
  | nil => exact le_refl _
  | cons g rest ih =>
    rw [binFold_cons]
    refine le_trans (Nat.le_add_right acc.2
      (processLabel multi badDest acc.1
        ⟨outputRoot, g.1, basename⟩ g.2).2) ?_
    exact ih
      (((processLabel multi badDest acc.1
          ⟨outputRoot, g.1, basename⟩ g.2).1,
        acc.2 + (processLabel multi badDest acc.1
          ⟨outputRoot, g.1, basename⟩ g.2).2))

theorem binFold_errs_bad (multi : Container)
    (outputRoot basename : String) (badDest : List BinPath)
    (groups : List (String × List String)) (acc : FS × Nat)
    (lbl : String) (rids : List String)
    (hmem : (lbl, rids) ∈ groups)
    (hbad : badDest.contains ⟨outputRoot, lbl, basename⟩ = true) :
    acc.2 + 1 ≤ (binFold multi outputRoot basename badDest groups acc).2 := by
  induction groups generalizing acc with
  | nil => simp at hmem
  | cons g rest ih =>
    obtain ⟨l0, r0⟩ := g
    rw [binFold_cons]
    rcases List.mem_cons.mp hmem with h | h
    · injection h with h1 h2
      subst h1
      subst h2
      have he : (processLabel multi badDest acc.1
          ⟨outputRoot, lbl, basename⟩ rids).2 = 1 := by
        unfold processLabel
        rw [if_pos hbad]
      refine le_trans ?_ (binFold_errs_mono multi outputRoot basename
        badDest rest _)
      simp [he]
    · refine le_trans (by omega : acc.2 + 1 ≤
        (acc.2 + (processLabel multi badDest acc.1
          ⟨outputRoot, l0, basename⟩ r0).2) + 1) ?_
      exact ih (((processLabel multi badDest acc.1
        ⟨outputRoot, l0, basename⟩ r0).1,
        acc.2 + (processLabel multi badDest acc.1
          ⟨outputRoot, l0, basename⟩ r0).2)) h

theorem mem_of_lookup {α β : Type} [DecidableEq α] {l : List (α × β)}
    {k : α} {v : β} (h : List.lookup k l = some v) : (k, v) ∈ l := by
  induction l with
  | nil => simp [List.lookup] at h
  | cons p rest ih =>
    obtain ⟨a, b⟩ := p
    rw [lookup_cons] at h
    by_cases hk : k = a
    · rw [if_pos (show k = (a, b).1 from hk)] at h
      have hv : v = b := (Option.some.inj h).symm
      subst hv
      subst hk
      exact List.mem_cons_self _ _
    · rw [if_neg (show ¬k = (a, b).1 from hk)] at h
      exact List.mem_cons_of_mem _ (ih h)

theorem lookup_isSome_of_mem_keys {α β : Type} [DecidableEq α]
    {l : List (α × β)} {k : α} (h : k ∈ l.map Prod.fst) :
    ∃ v, List.lookup k l = some v := by
  induction l with
  | nil => simp at h
  | cons p rest ih =>
    rw [lookup_cons]
    by_cases hk : k = p.1
    · exact ⟨p.2, if_pos hk⟩
    · rw [if_neg hk]
      apply ih
      simp only [List.map_cons, List.mem_cons] at h
      rcases h with h | h
      · exact absurd h hk
      · exact h

/-- What one binning run writes at an arbitrary path: the copied group of
its label when the path is one of the run's destinations, nothing
otherwise. -/
theorem fsGet_adapter_run (binning : List (String × String))
    (outputRoot basename : String) (multi : Container) (p : BinPath) :
    fsGet (multi_to_adapter_multi (some multi) outputRoot basename
        binning [] []).1 p
      = if p.outputRoot = outputRoot ∧ p.basename = basename ∧
            p.label ∈ (buildBinned binning (readIds multi)).map Prod.fst then
          (copyAll multi []
            (groupOf (buildBinned binning (readIds multi)) p.label)).1
        else [] := by
  show fsGet (binFold multi outputRoot basename []
      (buildBinned binning (readIds multi)) ([], 0)).1 p = _
  by_cases h : p.outputRoot = outputRoot ∧ p.basename = basename ∧
      p.label ∈ (buildBinned binning (readIds multi)).map Prod.fst
  · rw [if_pos h]
    obtain ⟨h1, h2, h3⟩ := h
    obtain ⟨g, hg⟩ := lookup_isSome_of_mem_keys h3
    have hmem := mem_of_lookup hg
    have hgrp : groupOf (buildBinned binning (readIds multi)) p.label = g := by
      rw [groupOf, hg]
      rfl
    have hp : p = ⟨outputRoot, p.label, basename⟩ := by
      obtain ⟨a, b, c⟩ := p
      simp only at h1 h2
      rw [h1, h2]
    rw [hp]
    rw [binFold_fsGet_target multi outputRoot basename [] _ ([], 0)
      p.label g hmem (buildBinned_keys_nodup binning (readIds multi))]
    rw [hgrp]
    rfl
  · rw [if_neg h]
    rw [binFold_fsGet_untouched multi outputRoot basename [] _ ([], 0) p]
    · rfl
    · intro g hg hpeq
      apply h
      rw [hpeq]
      exact ⟨rfl, rfl, by
        show g.1 ∈ _
        exact List.mem_map.mpr ⟨g, hg, rfl⟩⟩

/-- C4: in a binning run over one input container, every read with a table
entry that copies successfully appears in exactly one output container —
the one at `{outputRoot}/{label}/{basename}` for its label — and every read
absent from the table appears in no binning output. -/
theorem bin_partitioning (binning : List (String × String))
    (outputRoot basename : String) (multi : Container) :
    (∀ rid lbl, List.lookup rid binning = some lbl → rid ∈ readIds multi →
      goodRead multi rid = true →
      ∀ p : BinPath,
        (containsRead (fsGet (multi_to_adapter_multi (some multi)
            outputRoot basename binning [] []).1 p) rid = true
          ↔ p = ⟨outputRoot, lbl, basename⟩)) ∧
    (∀ rid, List.lookup rid binning = none →
      ∀ p : BinPath,
        containsRead (fsGet (multi_to_adapter_multi (some multi)
          outputRoot basename binning [] []).1 p) rid = false) := by
  constructor
  · intro rid lbl hlk hrid hgood p
    rw [fsGet_adapter_run]
    by_cases h : p.outputRoot = outputRoot ∧ p.basename = basename ∧
        p.label ∈ (buildBinned binning (readIds multi)).map Prod.fst
    · rw [if_pos h]
      obtain ⟨h1, h2, h3⟩ := h
      rw [containsRead_copyAll]
      rw [groupOf_buildBinned]
      constructor
      · rintro (hfalse | ⟨hmem, -⟩)
        · simp [containsRead, readIds] at hfalse
        · rw [List.mem_filter] at hmem
          have : List.lookup rid binning = some p.label :=
            of_decide_eq_true hmem.2
          rw [hlk] at this
          obtain ⟨a, b, c⟩ := p
          simp only at h1 h2 ⊢
          have hbl : lbl = b := Option.some.inj this
          rw [h1, h2, hbl]
      · intro hp
        refine Or.inr ⟨?_, hgood⟩
        rw [List.mem_filter]
        refine ⟨hrid, ?_⟩
        rw [hp]
        simpa using hlk
    · rw [if_neg h]
      constructor
      · intro hfalse
        simp [containsRead, readIds] at hfalse
      · intro hp
        exfalso
        apply h
        rw [hp]
        refine ⟨rfl, rfl, ?_⟩
        rw [mem_keys_buildBinned]
        exact ⟨rid, hrid, hlk⟩
  · intro rid hlk p
    rw [fsGet_adapter_run]
    by_cases h : p.outputRoot = outputRoot ∧ p.basename = basename ∧
        p.label ∈ (buildBinned binning (readIds multi)).map Prod.fst
    · rw [if_pos h]
      cases hc : containsRead
          (copyAll multi []
            (groupOf (buildBinned binning (readIds multi)) p.label)).1 rid
      · rfl
      · exfalso
        rcases (containsRead_copyAll multi []
            (groupOf (buildBinned binning (readIds multi)) p.label)
            rid).mp hc with hfalse | ⟨hmem, -⟩
        · simp [containsRead, readIds] at hfalse
        · rw [groupOf_buildBinned, List.mem_filter] at hmem
          have : List.lookup rid binning = some p.label :=
            of_decide_eq_true hmem.2
          rw [hlk] at this
          exact absurd this (by simp)
    · rw [if_neg h]
      rfl

theorem processLabel_bad (multi : Container) (badDest : List BinPath)
    (fs : FS) (p : BinPath) (rids : List String) (hc : p ∈ badDest) :
    processLabel multi badDest fs p rids = (fs, 1) := by
  unfold processLabel
  rw [if_pos (by simpa [List.contains] using hc)]

theorem processLabel_good (multi : Container) (badDest : List BinPath)
    (fs : FS) (p : BinPath) (rids : List String) (hc : p ∉ badDest) :
    processLabel multi badDest fs p rids
      = (fsSet fs p (copyAll multi (fsGet fs p) rids).1,
          (copyAll multi (fsGet fs p) rids).2) := by
  unfold processLabel
  rw [if_neg (by simpa [List.contains] using hc)]

theorem binFold_agree (multi : Container) (outputRoot basename : String)
    (p : BinPath) (groups : List (String × List String)) (fs₁ fs₂ : FS)
    (e₁ e₂ : Nat) (h : ∀ q, q ≠ p → fsGet fs₁ q = fsGet fs₂ q) :
    ∀ q, q ≠ p →
      fsGet (binFold multi outputRoot basename [p] groups (fs₁, e₁)).1 q
        = fsGet (binFold multi outputRoot basename [] groups (fs₂, e₂)).1 q := by
  induction groups generalizing fs₁ fs₂ e₁ e₂ with
  | nil => exact h
  | cons g rest ih =>
    rw [binFold_cons, binFold_cons]
    by_cases hgp : (⟨outputRoot, g.1, basename⟩ : BinPath) = p
    · rw [hgp]
      rw [processLabel_bad multi [p] fs₁ p g.2 (List.mem_singleton_self p)]
      rw [processLabel_good multi [] fs₂ p g.2 (List.not_mem_nil p)]
      apply ih
      intro q hq
      rw [fsGet_fsSet, if_neg hq]
      exact h q hq
    · rw [processLabel_good multi [p] fs₁ _ g.2
        (by simpa using hgp)]
      rw [processLabel_good multi [] fs₂ _ g.2 (List.not_mem_nil _)]
      have hsame : fsGet fs₁ ⟨outputRoot, g.1, basename⟩
          = fsGet fs₂ ⟨outputRoot, g.1, basename⟩ := h _ hgp
      rw [hsame]
      apply ih
      intro q hq
      rw [fsGet_fsSet, fsGet_fsSet]
      by_cases hqg : q = ⟨outputRoot, g.1, basename⟩
      · rw [if_pos hqg, if_pos hqg]
      · rw [if_neg hqg, if_neg hqg]
        exact h q hq

theorem binFold_badpath_untouched (multi : Container)
    (outputRoot basename : String) (badDest : List BinPath)
    (groups : List (String × List String)) (acc : FS × Nat) (p : BinPath)
    (hp : p ∈ badDest) :
    fsGet (binFold multi outputRoot basename badDest groups acc).1 p
      = fsGet acc.1 p := by
  induction groups generalizing acc with
  | nil => rfl
  | cons g rest ih =>
    rw [binFold_cons]
    rw [ih _]
    by_cases hgp : (⟨outputRoot, g.1, basename⟩ : BinPath) = p
    · rw [hgp, processLabel_bad multi badDest acc.1 p g.2 hp]
    · exact fsGet_processLabel_ne multi badDest acc.1 _ g.2 p
        (fun hh => hgp hh.symm)

/-- C7: in binning mode, a failure to open one label's destination is
caught and logged, all other labels of the same input file are still
written exactly as in an undisturbed run, and the failing destination is
left untouched; a failure to open the input container itself is caught,
logged, and the whole file is skipped with no output. -/
theorem bin_failure_isolation (multi : Container)
    (outputRoot basename : String) (binning : List (String × String))
    (fs₀ : FS) (badL : String) :
    (∀ q : BinPath, q ≠ ⟨outputRoot, badL, basename⟩ →
      fsGet (multi_to_adapter_multi (some multi) outputRoot basename binning
          [⟨outputRoot, badL, basename⟩] fs₀).1 q
        = fsGet (multi_to_adapter_multi (some multi) outputRoot basename
            binning [] fs₀).1 q) ∧
    (fsGet (multi_to_adapter_multi (some multi) outputRoot basename binning
        [⟨outputRoot, badL, basename⟩] fs₀).1 ⟨outputRoot, badL, basename⟩
      = fsGet fs₀ ⟨outputRoot, badL, basename⟩) ∧
    (badL ∈ (buildBinned binning (readIds multi)).map Prod.fst →
      1 ≤ (multi_to_adapter_multi (some multi) outputRoot basename binning
          [⟨outputRoot, badL, basename⟩] fs₀).2.1) ∧
    (∀ (badDest : List BinPath) (fs : FS),
      multi_to_adapter_multi none outputRoot basename binning badDest fs
        = (fs, 1, [basename])) := by
  refine ⟨?_, ?_, ?_, fun badDest fs => rfl⟩
  · intro q hq
    show fsGet (binFold multi outputRoot basename
        [⟨outputRoot, badL, basename⟩]
        (buildBinned binning (readIds multi)) (fs₀, 0)).1 q = _
    exact binFold_agree multi outputRoot basename ⟨outputRoot, badL, basename⟩
      (buildBinned binning (readIds multi)) fs₀ fs₀ 0 0
      (fun _ _ => rfl) q hq
  · show fsGet (binFold multi outputRoot basename
        [⟨outputRoot, badL, basename⟩]
        (buildBinned binning (readIds multi)) (fs₀, 0)).1
        ⟨outputRoot, badL, basename⟩ = _
    exact binFold_badpath_untouched multi outputRoot basename _ _ (fs₀, 0)
      ⟨outputRoot, badL, basename⟩ (List.mem_singleton_self _)
  · intro hmem
    obtain ⟨g, hg⟩ := lookup_isSome_of_mem_keys hmem
    show 1 ≤ (binFold multi outputRoot basename
        [⟨outputRoot, badL, basename⟩]
        (buildBinned binning (readIds multi)) (fs₀, 0)).2
    have := binFold_errs_bad multi outputRoot basename
      [⟨outputRoot, badL, basename⟩]
      (buildBinned binning (readIds multi)) (fs₀, 0) badL g
      (mem_of_lookup hg) (by simp [List.contains])
    simpa using this

/-- Test fixture: the spec's binning scenario — 5 of 8 reads mapped, labels
`A` (3 reads) and `B` (2 reads). -/
def binTable : List (String × String) :=
  [("a", "A"), ("b", "A"), ("c", "A"), ("d", "B"), ("e", "B")]

/-- Test fixture: one input container with 8 reads. -/
def input8 : Container :=
  ["a", "b", "c", "d", "e", "f", "g", "h"].map fun i =>
    (i, ⟨some "run", [("Raw", i)]⟩)

theorem bin_partitioning_witness :
    List.lookup "a" binTable = some "A" ∧
    "a" ∈ readIds input8 ∧
    goodRead input8 "a" = true ∧
    (containsRead (fsGet (multi_to_adapter_multi (some input8) "out" "in"
        binTable [] []).1 ⟨"out", "A", "in"⟩) "a" = true
      ↔ (⟨"out", "A", "in"⟩ : BinPath) = ⟨"out", "A", "in"⟩) ∧
    (List.lookup "f" binTable = none) ∧
    containsRead (fsGet (multi_to_adapter_multi (some input8) "out" "in"
        binTable [] []).1 ⟨"out", "A", "in"⟩) "f" = false :=
  ⟨by decide, by decide, by decide,
    (bin_partitioning binTable "out" "in" input8).1 "a" "A"
      (by decide) (by decide) (by decide) ⟨"out", "A", "in"⟩,
    by decide,
    (bin_partitioning binTable "out" "in" input8).2 "f"
      (by decide) ⟨"out", "A", "in"⟩⟩

theorem bin_failure_isolation_witness :
    ((⟨"out", "B", "in"⟩ : BinPath) ≠ ⟨"out", "A", "in"⟩) ∧
    fsGet (multi_to_adapter_multi (some input8) "out" "in" binTable
        [⟨"out", "A", "in"⟩] []).1 ⟨"out", "B", "in"⟩
      = fsGet (multi_to_adapter_multi (some input8) "out" "in" binTable
          [] []).1 ⟨"out", "B", "in"⟩ ∧
    ("A" ∈ (buildBinned binTable (readIds input8)).map Prod.fst) ∧
    1 ≤ (multi_to_adapter_multi (some input8) "out" "in" binTable
        [⟨"out", "A", "in"⟩] []).2.1 :=
  ⟨by decide,
    (bin_failure_isolation input8 "out" "in" binTable [] "A").1
      ⟨"out", "B", "in"⟩ (by decide),
    by decide,
    (bin_failure_isolation input8 "out" "in" binTable [] "A").2.2.1
      (by decide)⟩

end MultiToMulti
